/-
Verification of the rmds utility (src/rmds.c): a recursive scanner that
deletes `.DS_Store` (and optionally AppleDouble `._*`) files.

The shallow embedding models the filesystem as an inductive tree of
directory entries, the command-line options as a structure mirroring the
C `Options` struct, and one traversal (`remove_dsstore`) as a pure
function from a tree, an options record, a depth and a stdin stream to a
trace of observable events (log lines, unlink invocations, recursion
steps) together with the remaining stdin.
-/
import Mathlib

namespace Rmds

/-- Mirrors the C `Options` struct; field defaults are the initial values
assigned in `main`.  `max_depth` is a signed int in C, hence `Int`. -/
structure Options where
  dry_run : Bool := false
  quiet : Bool := false
  verbose : Bool := false
  interactive : Bool := false
  max_depth : Int := -1
  one_file_system : Bool := false
  root_dev : Nat := 0
  excludes : List String := []
  target_name : String := ".DS_Store"
  clean_all : Bool := false
deriving Repr, DecidableEq

/-- Mirrors `is_excluded` (rmds.c:71-79): linear scan of the exclude list
with `strcmp` equality. -/
def is_excluded (name : String) (opts : Options) : Bool :=
  opts.excludes.any (fun e => name == e)

/-- C `strncmp(name, "._", 2) == 0`: true iff the first two characters of
`name` exist and are `.` followed by `_`. -/
def startsDotUnderscore (name : String) : Bool :=
  name.data.take 2 == ['.', '_']

/-- Mirrors `is_target` (rmds.c:81-87): with `clean_all` the predicate is
exactly (`.DS_Store` or a `._` name) and `target_name` is not consulted;
otherwise it is `strcmp` equality with `target_name`. -/
def is_target (name : String) (opts : Options) : Bool :=
  if opts.clean_all then
    name == ".DS_Store" || startsDotUnderscore name
  else
    name == opts.target_name

/-- Result of `opendir` on a directory: success, `EACCES`/`EPERM`
(the access-denied branch at rmds.c:104), or any other errno. -/
inductive OpenRes where
  | ok
  | accessDenied
  | otherErr
deriving Repr, DecidableEq

/-- A filesystem node as observed through `lstat`.  `dir` carries the
device id (`st_dev`) and the outcome that `opendir` would report;
`file` and `symlink` carry whether `unlink` on them would succeed;
`statErr` is an entry on which `lstat` itself fails.  A `symlink`
records whether its referent is a directory, which `lstat` (and hence
the program) never observes. -/
inductive Node where
  | dir (dev : Nat) (res : OpenRes) (entries : List (String × Node))
  | file (unlinkOk : Bool)
  | symlink (targetIsDir : Bool) (unlinkOk : Bool)
  | statErr
deriving Repr

/-- Observable events of one traversal: each constructor corresponds to
one `printf`/`fprintf` site or system call in `remove_dsstore`, plus
`recurse`, which instruments the recursive call site (rmds.c:156) with
the joined child path, the entry name, the child's device id and the
caller's depth. -/
inductive Event where
  | errOpenAccess (path : String)
  | errOpenOther (path : String)
  | logScanning (path : String)
  | errStat (path : String)
  | logSkipExcluded (path : String)
  | logSkipDiffFs (path : String)
  | recurse (path : String) (name : String) (dev : Nat) (depth : Int)
  | prompt (path : String)
  | logWouldDelete (path : String)
  | unlinkCall (path : String)
  | logDeleted (path : String)
  | errDelete (path : String)
deriving Repr, DecidableEq

/-- The input-buffer clearing loop (rmds.c:166-167): consume characters
up to and including the next newline, or to end of input. -/
def dropLine : List Char → List Char
  | [] => []
  | c :: rest => if c = '\n' then rest else dropLine rest

/-- The interactive confirmation read (rmds.c:162-171): read one
character (empty stream = `EOF`); unless it was a newline or `EOF`,
drain the rest of the line; confirm iff the character read was
`y` or `Y`. -/
def readResponse : List Char → Bool × List Char
  | [] => (false, [])
  | c :: rest =>
    (c == 'y' || c == 'Y', if c = '\n' then rest else dropLine rest)

/-- The deletion step once confirmation is settled (rmds.c:174-189):
dry-run logs a would-delete line unless quiet and performs no unlink;
otherwise `unlink` is invoked, logging success unless quiet and logging
failure always. -/
def deleteAction (opts : Options) (fullpath : String) (unlinkOk : Bool) :
    List Event :=
  if opts.dry_run then
    if opts.quiet then [] else [Event.logWouldDelete fullpath]
  else
    if unlinkOk then
      Event.unlinkCall fullpath ::
        (if opts.quiet then [] else [Event.logDeleted fullpath])
    else
      [Event.unlinkCall fullpath, Event.errDelete fullpath]

/-- Handling of a matching non-directory entry (rmds.c:158-189):
interactive mode prompts and reads one response line, then the deletion
step runs only if confirmed. -/
def handleTarget (opts : Options) (fullpath : String) (unlinkOk : Bool)
    (stdin : List Char) : List Event × List Char :=
  if opts.interactive then
    let r := readResponse stdin
    (Event.prompt fullpath ::
      (if r.1 then deleteAction opts fullpath unlinkOk else []), r.2)
  else
    (deleteAction opts fullpath unlinkOk, stdin)

mutual

/-- Mirrors `remove_dsstore` (rmds.c:91-194) on one node: the depth
check, the `opendir` outcome cases, the verbose scanning log, then the
entry loop.  Calling it on a non-directory models `opendir` failing with
an errno other than `EACCES`/`EPERM` (e.g. `ENOTDIR`). -/
def scanNode (opts : Options) (path : String) (n : Node) (depth : Int)
    (stdin : List Char) : List Event × List Char :=
  if opts.max_depth ≠ -1 ∧ depth > opts.max_depth then ([], stdin)
  else
    match n with
    | .file _ => ((if opts.quiet then [] else [Event.errOpenOther path]), stdin)
    | .symlink _ _ =>
        ((if opts.quiet then [] else [Event.errOpenOther path]), stdin)
    | .statErr => ((if opts.quiet then [] else [Event.errOpenOther path]), stdin)
    | .dir _ .accessDenied _ =>
        ((if ¬opts.quiet ∧ opts.verbose then [Event.errOpenAccess path]
          else []), stdin)
    | .dir _ .otherErr _ =>
        ((if opts.quiet then [] else [Event.errOpenOther path]), stdin)
    | .dir _ .ok entries =>
        let head := if opts.verbose ∧ ¬opts.quiet
          then [Event.logScanning path] else []
        let r := scanEntries opts path entries depth stdin
        (head ++ r.1, r.2)
termination_by (sizeOf n, 0)

/-- The `readdir` loop (rmds.c:122-191): entries are processed left to
right, threading the stdin stream through. -/
def scanEntries (opts : Options) (path : String)
    (es : List (String × Node)) (depth : Int) (stdin : List Char) :
    List Event × List Char :=
  match es with
  | [] => ([], stdin)
  | (name, child) :: rest =>
    let r := processEntry opts path name child depth stdin
    let r2 := scanEntries opts path rest depth r.2
    (r.1 ++ r2.1, r2.2)
termination_by (sizeOf es, 2)

/-- One iteration of the entry loop: skip `.`/`..`, join the child path,
dispatch on the `lstat` result — directories are recursed into unless
excluded or on a different device (rmds.c:138-156), non-directories go
through the target predicate and deletion flow (rmds.c:157-189). -/
def processEntry (opts : Options) (path : String) (name : String)
    (child : Node) (depth : Int) (stdin : List Char) :
    List Event × List Char :=
  if name = "." ∨ name = ".." then ([], stdin)
  else
    let fullpath := path ++ "/" ++ name
    match child with
    | .statErr =>
        ((if opts.quiet then [] else [Event.errStat fullpath]), stdin)
    | .dir dev res entries =>
        if is_excluded name opts then
          ((if opts.verbose ∧ ¬opts.quiet then [Event.logSkipExcluded fullpath]
            else []), stdin)
        else if opts.one_file_system ∧ dev ≠ opts.root_dev then
          ((if opts.verbose ∧ ¬opts.quiet then [Event.logSkipDiffFs fullpath]
            else []), stdin)
        else
          let r := scanNode opts fullpath (Node.dir dev res entries)
            (depth + 1) stdin
          (Event.recurse fullpath name dev depth :: r.1, r.2)
    | .file uok =>
        if is_target name opts then handleTarget opts fullpath uok stdin
        else ([], stdin)
    | .symlink _ uok =>
        if is_target name opts then handleTarget opts fullpath uok stdin
        else ([], stdin)
termination_by (sizeOf child, 1)

end

/-- The C `S_ISDIR` test on the mode obtained by `lstat`: true only for a
real directory; a symbolic link reports false because `lstat` does not
follow it (rmds.c:130,138). -/
def S_ISDIR : Node → Bool
  | .dir _ _ _ => true
  | _ => false

/-- Paths of the `unlink` invocations in a trace: the filesystem
mutations a run performs. -/
def unlinkPaths (tr : List Event) : List String :=
  tr.filterMap fun e =>
    match e with
    | .unlinkCall p => some p
    | _ => none

/-- Paths logged on a `(dry-run) Would delete:` line in a trace. -/
def wouldDeletePaths (tr : List Event) : List String :=
  tr.filterMap fun e =>
    match e with
    | .logWouldDelete p => some p
    | _ => none

theorem readResponse_snd (st : List Char) : (readResponse st).2 = dropLine st := by
  cases st with
  | nil => rfl
  | cons c rest => simp [readResponse, dropLine]

theorem readResponse_fst (st : List Char) :
    (readResponse st).1 = true ↔
      ∃ c rest, st = c :: rest ∧ (c = 'y' ∨ c = 'Y') := by
  cases st with
  | nil => simp [readResponse]
  | cons c rest => simp [readResponse]

theorem mem_deleteAction (opts : Options) (q : String) (uok : Bool)
    (e : Event) (h : e ∈ deleteAction opts q uok) :
    e = Event.logWouldDelete q ∨ e = Event.unlinkCall q ∨
      e = Event.logDeleted q ∨ e = Event.errDelete q := by
  unfold deleteAction at h
  split at h
  · split at h
    · simp at h
    · simp at h
      tauto
  · split at h
    · simp at h
      tauto
    · simp at h
      tauto

theorem unlink_mem_deleteAction (opts : Options) (q x : String) (uok : Bool) :
    Event.unlinkCall x ∈ deleteAction opts q uok ↔
      opts.dry_run = false ∧ x = q := by
  unfold deleteAction
  split
  · split <;> simp_all
  · split <;> simp_all

theorem wd_mem_deleteAction (opts : Options) (q x : String) (uok : Bool) :
    Event.logWouldDelete x ∈ deleteAction opts q uok ↔
      opts.dry_run = true ∧ opts.quiet = false ∧ x = q := by
  unfold deleteAction
  split
  · split <;> simp_all
  · split <;> simp_all

theorem mem_handleTarget (opts : Options) (q : String) (uok : Bool)
    (st : List Char) (e : Event) (h : e ∈ (handleTarget opts q uok st).1) :
    e = Event.prompt q ∨ e ∈ deleteAction opts q uok := by
  unfold handleTarget at h
  split at h
  · simp only [List.mem_cons] at h
    rcases h with h | h
    · exact Or.inl h
    · split at h
      · exact Or.inr h
      · simp at h
  · exact Or.inr h

theorem handleTarget_snd (opts : Options) (q : String) (uok : Bool)
    (st : List Char) :
    (handleTarget opts q uok st).2 =
      if opts.interactive = true then dropLine st else st := by
  unfold handleTarget
  split <;> simp_all [readResponse_snd]

theorem recurse_not_mem_handleTarget (opts : Options) (q p nm : String)
    (dv : Nat) (dd : Int) (uok : Bool) (st : List Char) :
    Event.recurse p nm dv dd ∉ (handleTarget opts q uok st).1 := by
  intro h
  rcases mem_handleTarget opts q uok st _ h with h | h
  · exact Event.noConfusion h
  · rcases mem_deleteAction opts q uok _ h with h | h | h | h <;>
      exact Event.noConfusion h

/-- The invariant carried by every `recurse` event: the entry recursed
into was not excluded, and under `--one-file-system` it was on the
root's device. -/
def RecurseInv (opts : Options) (e : Event) : Prop :=
  ∀ p nm dv dd, e = Event.recurse p nm dv dd →
    is_excluded nm opts = false ∧
      (opts.one_file_system = true → dv = opts.root_dev)

mutual

theorem recurse_inv_node (opts : Options) (path : String) (n : Node)
    (depth : Int) (stdin : List Char) (e : Event)
    (h : e ∈ (scanNode opts path n depth stdin).1) :
    RecurseInv opts e :=
  match n, h with
  | Node.dir dev OpenRes.ok entries, h => by
    simp only [scanNode] at h
    split at h
    · simp at h
    · simp only [List.mem_append] at h
      rcases h with h | h
      · intro p nm dv dd he
        subst he
        split at h <;> simp at h
      · exact recurse_inv_entries opts path entries depth stdin e h
  | Node.dir dev OpenRes.accessDenied entries, h => by
    intro p nm dv dd he
    subst he
    simp only [scanNode] at h
    split at h <;> [skip; split at h] <;> simp at h
  | Node.dir dev OpenRes.otherErr entries, h => by
    intro p nm dv dd he
    subst he
    simp only [scanNode] at h
    split at h <;> [skip; split at h] <;> simp at h
  | Node.file uok, h => by
    intro p nm dv dd he
    subst he
    simp only [scanNode] at h
    split at h <;> [skip; split at h] <;> simp at h
  | Node.symlink tid uok, h => by
    intro p nm dv dd he
    subst he
    simp only [scanNode] at h
    split at h <;> [skip; split at h] <;> simp at h
  | Node.statErr, h => by
    intro p nm dv dd he
    subst he
    simp only [scanNode] at h
    split at h <;> [skip; split at h] <;> simp at h
termination_by (sizeOf n, 0)

theorem recurse_inv_entries (opts : Options) (path : String)
    (es : List (String × Node)) (depth : Int) (stdin : List Char) (e : Event)
    (h : e ∈ (scanEntries opts path es depth stdin).1) :
    RecurseInv opts e :=
  match es, h with
  | [], h => by simp [scanEntries] at h
  | (name, child) :: rest, h => by
    simp only [scanEntries, List.mem_append] at h
    rcases h with h | h
    · exact recurse_inv_entry opts path name child depth stdin e h
    · exact recurse_inv_entries opts path rest depth _ e h
termination_by (sizeOf es, 2)

theorem recurse_inv_entry (opts : Options) (path name : String)
    (child : Node) (depth : Int) (stdin : List Char) (e : Event)
    (h : e ∈ (processEntry opts path name child depth stdin).1) :
    RecurseInv opts e :=
  match child, h with
  | Node.dir dev res entries, h => by
    simp only [processEntry] at h
    split at h
    · simp at h
    · split at h
      · intro p nm dv dd he
        subst he
        split at h <;> simp at h
      · split at h
        · intro p nm dv dd he
          subst he
          split at h <;> simp at h
        · rename_i hexcl hfs
          simp only [List.mem_cons] at h
          rcases h with h | h
          · intro p nm dv dd he
            rw [he] at h
            cases h
            refine ⟨by simpa using hexcl, fun hofs => ?_⟩
            by_contra hne
            exact hfs ⟨hofs, hne⟩
          · exact recurse_inv_node opts (path ++ "/" ++ name)
              (Node.dir dev res entries) (depth + 1) stdin e h
  | Node.file uok, h => by
    intro p nm dv dd he
    subst he
    simp only [processEntry] at h
    split at h
    · simp at h
    · split at h
      · exact absurd h (recurse_not_mem_handleTarget _ _ _ _ _ _ _ _)
      · simp at h
  | Node.symlink tid uok, h => by
    intro p nm dv dd he
    subst he
    simp only [processEntry] at h
    split at h
    · simp at h
    · split at h
      · exact absurd h (recurse_not_mem_handleTarget _ _ _ _ _ _ _ _)
      · simp at h
  | Node.statErr, h => by
    intro p nm dv dd he
    subst he
    simp only [processEntry] at h
    split at h <;> [skip; split at h] <;> simp at h
termination_by (sizeOf child, 1)

end

theorem unlink_mem_handleTarget (opts : Options) (q x : String) (uok : Bool)
    (st : List Char) (h : Event.unlinkCall x ∈ (handleTarget opts q uok st).1) :
    x = q := by
  rcases mem_handleTarget opts q uok st _ h with h | h
  · exact Event.noConfusion h
  · exact ((unlink_mem_deleteAction opts q x uok).mp h).2

/-- Provenance of a deletion: every unlinked path is the join of a
scanned directory and an entry name, where the scanned directory is
either the argument directory itself or one reached by a `recurse`
step recorded in the same trace. -/
def UnlinkProv (path : String) (tr : List Event) : Prop :=
  ∀ p, Event.unlinkCall p ∈ tr →
    ∃ q f, p = q ++ "/" ++ f ∧
      (q = path ∨ ∃ nm dv dd, Event.recurse q nm dv dd ∈ tr)

mutual

theorem unlink_prov_node (opts : Options) (path : String) (n : Node)
    (depth : Int) (stdin : List Char) :
    UnlinkProv path (scanNode opts path n depth stdin).1 :=
  match n with
  | Node.dir dev OpenRes.ok entries => by
    intro p h
    by_cases hdep : opts.max_depth ≠ -1 ∧ depth > opts.max_depth
    · simp only [scanNode] at h
      rw [if_pos hdep] at h
      simp at h
    · have htr : (scanNode opts path (Node.dir dev OpenRes.ok entries)
          depth stdin).1 =
          (if opts.verbose = true ∧ ¬opts.quiet = true
            then [Event.logScanning path] else [])
          ++ (scanEntries opts path entries depth stdin).1 := by
        simp only [scanNode]
        rw [if_neg hdep]
      rw [htr] at h ⊢
      simp only [List.mem_append] at h
      rcases h with h | h
      · split at h <;> simp at h
      · obtain ⟨q, f, hpf, hq⟩ :=
          unlink_prov_entries opts path entries depth stdin p h
        refine ⟨q, f, hpf, ?_⟩
        rcases hq with hq | ⟨nm, dv, dd, hm⟩
        · exact Or.inl hq
        · exact Or.inr ⟨nm, dv, dd, List.mem_append_right _ hm⟩
  | Node.dir dev OpenRes.accessDenied entries => by
    intro p h
    simp only [scanNode] at h
    split at h <;> [skip; split at h] <;> simp at h
  | Node.dir dev OpenRes.otherErr entries => by
    intro p h
    simp only [scanNode] at h
    split at h <;> [skip; split at h] <;> simp at h
  | Node.file uok => by
    intro p h
    simp only [scanNode] at h
    split at h <;> [skip; split at h] <;> simp at h
  | Node.symlink tid uok => by
    intro p h
    simp only [scanNode] at h
    split at h <;> [skip; split at h] <;> simp at h
  | Node.statErr => by
    intro p h
    simp only [scanNode] at h
    split at h <;> [skip; split at h] <;> simp at h
termination_by (sizeOf n, 0)

theorem unlink_prov_entries (opts : Options) (path : String)
    (es : List (String × Node)) (depth : Int) (stdin : List Char) :
    UnlinkProv path (scanEntries opts path es depth stdin).1 :=
  match es with
  | [] => by
    intro p h
    simp [scanEntries] at h
  | (name, child) :: rest => by
    intro p h
    have htr : (scanEntries opts path ((name, child) :: rest) depth stdin).1 =
        (processEntry opts path name child depth stdin).1 ++
          (scanEntries opts path rest depth
            (processEntry opts path name child depth stdin).2).1 := by
      simp only [scanEntries]
    rw [htr] at h ⊢
    simp only [List.mem_append] at h
    rcases h with h | h
    · obtain ⟨q, f, hpf, hq⟩ :=
        unlink_prov_entry opts path name child depth stdin p h
      refine ⟨q, f, hpf, ?_⟩
      rcases hq with hq | ⟨nm, dv, dd, hm⟩
      · exact Or.inl hq
      · exact Or.inr ⟨nm, dv, dd, List.mem_append_left _ hm⟩
    · obtain ⟨q, f, hpf, hq⟩ :=
        unlink_prov_entries opts path rest depth _ p h
      refine ⟨q, f, hpf, ?_⟩
      rcases hq with hq | ⟨nm, dv, dd, hm⟩
      · exact Or.inl hq
      · exact Or.inr ⟨nm, dv, dd, List.mem_append_right _ hm⟩
termination_by (sizeOf es, 2)

theorem unlink_prov_entry (opts : Options) (path name : String)
    (child : Node) (depth : Int) (stdin : List Char) :
    UnlinkProv path (processEntry opts path name child depth stdin).1 :=
  match child with
  | Node.dir dev res entries => by
    intro p h
    simp only [processEntry] at h ⊢
    split at h
    · simp at h
    · rename_i hdot
      rw [if_neg hdot]
      split at h
      · rename_i hexcl
        rw [if_pos hexcl]
        split at h <;> simp at h
      · rename_i hexcl
        rw [if_neg hexcl]
        split at h
        · rename_i hfs
          rw [if_pos hfs]
          split at h <;> simp at h
        · rename_i hfs
          rw [if_neg hfs]
          simp only [List.mem_cons] at h
          rcases h with h | h
          · exact absurd h (by simp)
          · obtain ⟨q, f, hpf, hq⟩ :=
              unlink_prov_node opts (path ++ "/" ++ name)
                (Node.dir dev res entries) (depth + 1) stdin p h
            refine ⟨q, f, hpf, Or.inr ?_⟩
            rcases hq with hq | ⟨nm, dv, dd, hmem⟩
            · exact ⟨name, dev, depth, by rw [hq]; exact List.mem_cons_self _ _⟩
            · exact ⟨nm, dv, dd, List.mem_cons_of_mem _ hmem⟩
  | Node.file uok => by
    intro p h
    simp only [processEntry] at h
    split at h
    · simp at h
    · split at h
      · exact ⟨path, name, unlink_mem_handleTarget _ _ _ _ _ h, Or.inl rfl⟩
      · simp at h
  | Node.symlink tid uok => by
    intro p h
    simp only [processEntry] at h
    split at h
    · simp at h
    · split at h
      · exact ⟨path, name, unlink_mem_handleTarget _ _ _ _ _ h, Or.inl rfl⟩
      · simp at h
  | Node.statErr => by
    intro p h
    simp only [processEntry] at h
    split at h <;> [skip; split at h] <;> simp at h
termination_by (sizeOf child, 1)

end

end Rmds

namespace Rmds

@[simp]
theorem unlinkPaths_append (a b : List Event) :
    unlinkPaths (a ++ b) = unlinkPaths a ++ unlinkPaths b := by
  simp [unlinkPaths]

@[simp]
theorem wouldDeletePaths_append (a b : List Event) :
    wouldDeletePaths (a ++ b) = wouldDeletePaths a ++ wouldDeletePaths b := by
  simp [wouldDeletePaths]

@[simp]
theorem unlinkPaths_cons_recurse (p nm : String) (dv : Nat) (dd : Int)
    (l : List Event) :
    unlinkPaths (Event.recurse p nm dv dd :: l) = unlinkPaths l := by
  simp [unlinkPaths]

@[simp]
theorem wouldDeletePaths_cons_recurse (p nm : String) (dv : Nat) (dd : Int)
    (l : List Event) :
    wouldDeletePaths (Event.recurse p nm dv dd :: l) = wouldDeletePaths l := by
  simp [wouldDeletePaths]

theorem dry_wet_handleTarget (q v i : Bool) (md : Int) (ofs : Bool)
    (rd : Nat) (ex : List String) (tn : String) (ca : Bool)
    (fullpath : String) (uok : Bool) (st : List Char) :
    unlinkPaths (handleTarget (Options.mk true q v i md ofs rd ex tn ca)
        fullpath uok st).1 = [] ∧
    (q = false →
      wouldDeletePaths (handleTarget (Options.mk true q v i md ofs rd ex tn ca)
          fullpath uok st).1 =
        unlinkPaths (handleTarget (Options.mk false q v i md ofs rd ex tn ca)
          fullpath uok st).1) ∧
    (handleTarget (Options.mk true q v i md ofs rd ex tn ca)
        fullpath uok st).2 =
      (handleTarget (Options.mk false q v i md ofs rd ex tn ca)
        fullpath uok st).2 := by
  unfold handleTarget deleteAction
  cases i <;> cases uok <;> cases q <;>
    simp [unlinkPaths, wouldDeletePaths] <;> split <;> simp

mutual

theorem dry_wet_node (q v i : Bool) (md : Int) (ofs : Bool)
    (rd : Nat) (ex : List String) (tn : String) (ca : Bool)
    (path : String) (n : Node) (depth : Int) (st : List Char) :
    unlinkPaths (scanNode (Options.mk true q v i md ofs rd ex tn ca)
        path n depth st).1 = [] ∧
    (q = false →
      wouldDeletePaths (scanNode (Options.mk true q v i md ofs rd ex tn ca)
          path n depth st).1 =
        unlinkPaths (scanNode (Options.mk false q v i md ofs rd ex tn ca)
          path n depth st).1) ∧
    (scanNode (Options.mk true q v i md ofs rd ex tn ca) path n depth st).2 =
      (scanNode (Options.mk false q v i md ofs rd ex tn ca) path n depth st).2 :=
  match n with
  | Node.dir dev OpenRes.ok entries => by
    obtain ⟨h1, h2, h3⟩ :=
      dry_wet_entries q v i md ofs rd ex tn ca path entries depth st
    refine ⟨?_, fun hq => ?_, ?_⟩
    · simp only [scanNode]
      split
      · simp [unlinkPaths]
      · simp only [unlinkPaths_append, h1]
        split <;> simp [unlinkPaths]
    · simp only [scanNode]
      split
      · simp [unlinkPaths, wouldDeletePaths]
      · simp only [wouldDeletePaths_append, unlinkPaths_append, h2 hq]
        congr 1
        split <;> simp [unlinkPaths, wouldDeletePaths]
    · simp only [scanNode]
      split
      · rfl
      · simpa using h3
  | Node.dir dev OpenRes.accessDenied entries => by
    refine ⟨?_, fun hq => ?_, ?_⟩ <;> simp only [scanNode] <;> split <;>
      first
        | rfl
        | (split <;> simp [unlinkPaths, wouldDeletePaths])
  | Node.dir dev OpenRes.otherErr entries => by
    refine ⟨?_, fun hq => ?_, ?_⟩ <;> simp only [scanNode] <;> split <;>
      first
        | rfl
        | (split <;> simp [unlinkPaths, wouldDeletePaths])
  | Node.file uok => by
    refine ⟨?_, fun hq => ?_, ?_⟩ <;> simp only [scanNode] <;> split <;>
      first
        | rfl
        | (split <;> simp [unlinkPaths, wouldDeletePaths])
  | Node.symlink tid uok => by
    refine ⟨?_, fun hq => ?_, ?_⟩ <;> simp only [scanNode] <;> split <;>
      first
        | rfl
        | (split <;> simp [unlinkPaths, wouldDeletePaths])
  | Node.statErr => by
    refine ⟨?_, fun hq => ?_, ?_⟩ <;> simp only [scanNode] <;> split <;>
      first
        | rfl
        | (split <;> simp [unlinkPaths, wouldDeletePaths])
termination_by (sizeOf n, 0)

theorem dry_wet_entries (q v i : Bool) (md : Int) (ofs : Bool)
    (rd : Nat) (ex : List String) (tn : String) (ca : Bool)
    (path : String) (es : List (String × Node)) (depth : Int)
    (st : List Char) :
    unlinkPaths (scanEntries (Options.mk true q v i md ofs rd ex tn ca)
        path es depth st).1 = [] ∧
    (q = false →
      wouldDeletePaths (scanEntries (Options.mk true q v i md ofs rd ex tn ca)
          path es depth st).1 =
        unlinkPaths (scanEntries (Options.mk false q v i md ofs rd ex tn ca)
          path es depth st).1) ∧
    (scanEntries (Options.mk true q v i md ofs rd ex tn ca)
        path es depth st).2 =
      (scanEntries (Options.mk false q v i md ofs rd ex tn ca)
        path es depth st).2 :=
  match es with
  | [] => by
    refine ⟨?_, fun hq => ?_, ?_⟩ <;> simp [scanEntries, unlinkPaths, wouldDeletePaths]
  | (name, child) :: rest => by
    obtain ⟨e1, e2, e3⟩ :=
      dry_wet_entry q v i md ofs rd ex tn ca path name child depth st
    obtain ⟨r1, r2, r3⟩ :=
      dry_wet_entries q v i md ofs rd ex tn ca path rest depth
        (processEntry (Options.mk true q v i md ofs rd ex tn ca)
          path name child depth st).2
    refine ⟨?_, fun hq => ?_, ?_⟩
    · simp only [scanEntries, unlinkPaths_append]
      rw [e1, r1]
      rfl
    · simp only [scanEntries, wouldDeletePaths_append, unlinkPaths_append]
      rw [← e3, e2 hq, r2 hq]
    · simp only [scanEntries]
      rw [← e3]
      exact r3
termination_by (sizeOf es, 2)

theorem dry_wet_entry (q v i : Bool) (md : Int) (ofs : Bool)
    (rd : Nat) (ex : List String) (tn : String) (ca : Bool)
    (path name : String) (child : Node) (depth : Int) (st : List Char) :
    unlinkPaths (processEntry (Options.mk true q v i md ofs rd ex tn ca)
        path name child depth st).1 = [] ∧
    (q = false →
      wouldDeletePaths (processEntry (Options.mk true q v i md ofs rd ex tn ca)
          path name child depth st).1 =
        unlinkPaths (processEntry (Options.mk false q v i md ofs rd ex tn ca)
          path name child depth st).1) ∧
    (processEntry (Options.mk true q v i md ofs rd ex tn ca)
        path name child depth st).2 =
      (processEntry (Options.mk false q v i md ofs rd ex tn ca)
        path name child depth st).2 :=
  match child with
  | Node.dir dev res entries => by
    obtain ⟨h1, h2, h3⟩ :=
      dry_wet_node q v i md ofs rd ex tn ca (path ++ "/" ++ name)
        (Node.dir dev res entries) (depth + 1) st
    refine ⟨?_, fun hq => ?_, ?_⟩
    · simp only [processEntry, is_excluded]
      split
      · simp [unlinkPaths]
      · split
        · split <;> simp [unlinkPaths]
        · split
          · split <;> simp [unlinkPaths]
          · simpa only [unlinkPaths_cons_recurse] using h1
    · simp only [processEntry, is_excluded]
      split
      · simp [unlinkPaths, wouldDeletePaths]
      · split
        · split <;> simp [unlinkPaths, wouldDeletePaths]
        · split
          · split <;> simp [unlinkPaths, wouldDeletePaths]
          · simpa only [unlinkPaths_cons_recurse,
              wouldDeletePaths_cons_recurse] using h2 hq
    · simp only [processEntry, is_excluded]
      split
      · rfl
      · split
        · rfl
        · split
          · rfl
          · simpa using h3
  | Node.file uok => by
    obtain ⟨t1, t2, t3⟩ := dry_wet_handleTarget q v i md ofs rd ex tn ca
      (path ++ "/" ++ name) uok st
    refine ⟨?_, fun hq => ?_, ?_⟩
    · simp only [processEntry, is_target]
      split
      · simp [unlinkPaths]
      · split <;> split <;> first | exact t1 | simp [unlinkPaths]
    · simp only [processEntry, is_target]
      split
      · simp [unlinkPaths, wouldDeletePaths]
      · split <;> split <;>
          first | exact t2 hq | simp [unlinkPaths, wouldDeletePaths]
    · simp only [processEntry, is_target]
      split
      · rfl
      · split <;> split <;> first | exact t3 | rfl
  | Node.symlink tid uok => by
    obtain ⟨t1, t2, t3⟩ := dry_wet_handleTarget q v i md ofs rd ex tn ca
      (path ++ "/" ++ name) uok st
    refine ⟨?_, fun hq => ?_, ?_⟩
    · simp only [processEntry, is_target]
      split
      · simp [unlinkPaths]
      · split <;> split <;> first | exact t1 | simp [unlinkPaths]
    · simp only [processEntry, is_target]
      split
      · simp [unlinkPaths, wouldDeletePaths]
      · split <;> split <;>
          first | exact t2 hq | simp [unlinkPaths, wouldDeletePaths]
    · simp only [processEntry, is_target]
      split
      · rfl
      · split <;> split <;> first | exact t3 | rfl
  | Node.statErr => by
    refine ⟨?_, fun hq => ?_, ?_⟩ <;> simp only [processEntry] <;> split <;>
      first
        | rfl
        | (split <;> simp [unlinkPaths, wouldDeletePaths])
termination_by (sizeOf child, 1)

end

end Rmds

namespace Rmds

theorem startsDotUnderscore_iff (name : String) :
    startsDotUnderscore name = true ↔ ['.', '_'] <+: name.data := by
  rw [startsDotUnderscore, beq_iff_eq, List.prefix_iff_eq_take]
  simp [eq_comm]

/-- The target predicate as claim C2 words it: an exact match to
`target_name`, or — when `clean_all` is set — an exact match to
`.DS_Store` or a name with `._` as prefix, as one disjunction. -/
def is_target_spec (name : String) (opts : Options) : Prop :=
  name = opts.target_name ∨
    (opts.clean_all = true ∧ (name = ".DS_Store" ∨ ['.', '_'] <+: name.data))

theorem scanNode_stop (opts : Options) (path : String) (n : Node)
    (depth : Int) (st : List Char) (h1 : opts.max_depth ≠ -1)
    (h2 : depth > opts.max_depth) :
    scanNode opts path n depth st = ([], st) := by
  rw [scanNode.eq_def, if_pos ⟨h1, h2⟩]

/-- Claim C2 (counterexample): with `clean_all` set and a custom
`--name` target, the code ignores `target_name` entirely, so a name
equal to the configured target but not of `.DS_Store`/`._` shape is not
matched, while the claim's disjunctive predicate says it is. -/
theorem C2_counterexample :
    is_target_spec "Thumbs.db"
      { clean_all := true, target_name := "Thumbs.db" } ∧
    is_target "Thumbs.db"
      { clean_all := true, target_name := "Thumbs.db" } = false := by
  constructor
  · exact Or.inl rfl
  · decide

/-- Claim C2 (amended): the target predicate holds iff, when `clean_all`
is set, the name is exactly `.DS_Store` or has prefix `._` (the
configured `target_name` is ignored); with `clean_all` unset it holds
iff the name is an exact match to `target_name`. -/
theorem C2_target_predicate (name : String) (opts : Options) :
    is_target name opts = true ↔
      (if opts.clean_all = true then
        name = ".DS_Store" ∨ ['.', '_'] <+: name.data
      else
        name = opts.target_name) := by
  rw [is_target]
  rcases h : opts.clean_all with _ | _
  · simp [h]
  · simp [h, startsDotUnderscore_iff]

/-- Claim C10: a `max_depth` strictly below `-1` (e.g. `--max-depth -2`)
makes every scan call, the root call at depth 0 included, return at the
depth check: the traversal emits no event, touches nothing and leaves
stdin untouched; only `-1` disables the limit. -/
theorem C10_negative_max_depth (opts : Options) (path : String) (n : Node)
    (depth : Int) (st : List Char) (hmd : opts.max_depth < -1)
    (hd : 0 ≤ depth) :
    scanNode opts path n depth st = ([], st) :=
  scanNode_stop opts path n depth st (by omega) (by omega)

/-- Claim C10 (witness): concrete run with `max_depth = -2` at depth 0
on a non-empty tree. -/
theorem C10_witness :
    ((-2 : Int) < -1 ∧ (0 : Int) ≥ 0) ∧
      scanNode { max_depth := -2 } "r"
        (Node.dir 5 OpenRes.ok [(".DS_Store", Node.file true)]) 0 [] =
        ([], []) :=
  ⟨⟨by norm_num, by norm_num⟩,
    C10_negative_max_depth { max_depth := -2 } "r"
      (Node.dir 5 OpenRes.ok [(".DS_Store", Node.file true)]) 0 []
      (by norm_num) (by norm_num)⟩

end Rmds

namespace Rmds

/-- Claim C6 (counterexample): an unopenable directory failing with
`EACCES`/`EPERM` produces no diagnostic at all when `verbose` is unset,
although `quiet` is also unset — the code only prints the access-denied
skip under `--verbose` (rmds.c:105-107). -/
theorem C6_counterexample :
    ({} : Options).quiet = false ∧
    (scanNode {} "d"
      (Node.dir 0 OpenRes.accessDenied [(".DS_Store", Node.file true)])
      0 []).1 = [] :=
  ⟨rfl, by simp [scanNode]⟩

/-- Claim C6 (amended): a directory whose listing cannot be opened makes
scan return with stdin untouched and nothing deleted, reporting — when
quiet is unset — an access-denied skip only if verbose is also set, and
any other open failure unconditionally; the failure aborts only that
directory, not the traversal. -/
theorem C6_open_failure (opts : Options) (path : String) (dv : Nat)
    (es : List (String × Node)) (depth : Int) (st : List Char)
    (hdep : opts.max_depth = -1 ∨ depth ≤ opts.max_depth) :
    scanNode opts path (Node.dir dv OpenRes.accessDenied es) depth st =
      ((if opts.quiet = false ∧ opts.verbose = true
        then [Event.errOpenAccess path] else []), st) ∧
    scanNode opts path (Node.dir dv OpenRes.otherErr es) depth st =
      ((if opts.quiet = false then [Event.errOpenOther path] else []), st) := by
  have hng : ¬(opts.max_depth ≠ -1 ∧ depth > opts.max_depth) := by
    rcases hdep with h | h
    · simp [h]
    · intro hc
      omega
  constructor
  · simp only [scanNode]
    rw [if_neg hng]
    cases hq : opts.quiet <;> simp [hq]
  · simp only [scanNode]
    rw [if_neg hng]
    cases hq : opts.quiet <;> simp [hq]

/-- Claim C6 (witness): concrete unopenable directories under default
options. -/
theorem C6_witness :
    (({} : Options).max_depth = -1 ∨ (0 : Int) ≤ ({} : Options).max_depth) ∧
    scanNode {} "d" (Node.dir 0 OpenRes.accessDenied []) 0 [] = ([], []) ∧
    scanNode { verbose := true } "d" (Node.dir 0 OpenRes.accessDenied []) 0 []
      = ([Event.errOpenAccess "d"], []) ∧
    scanNode {} "d" (Node.dir 0 OpenRes.otherErr []) 0 [] =
      ([Event.errOpenOther "d"], []) :=
  ⟨Or.inl rfl,
    by
      have h := (C6_open_failure {} "d" 0 [] 0 [] (Or.inl rfl)).1
      simpa using h,
    by
      have h := (C6_open_failure { verbose := true } "d" 0 [] 0 []
        (Or.inl rfl)).1
      simpa using h,
    by
      have h := (C6_open_failure {} "d" 0 [] 0 [] (Or.inl rfl)).2
      simpa using h⟩

/-- Claim C3: a directory entry whose name is in the exclude list is
never recursed into — every `recurse` step in any traversal carries a
name the exclude check rejects. -/
theorem C3_excluded_never_recursed (opts : Options) (path : String)
    (n : Node) (depth : Int) (stdin : List Char) (p nm : String)
    (dv : Nat) (dd : Int)
    (h : Event.recurse p nm dv dd ∈ (scanNode opts path n depth stdin).1) :
    is_excluded nm opts = false :=
  (recurse_inv_node opts path n depth stdin _ h p nm dv dd rfl).1

def optsC3 : Options := { excludes := ["node_modules"] }

def treeC3 : Node :=
  Node.dir 5 OpenRes.ok
    [("sub", Node.dir 5 OpenRes.ok [(".DS_Store", Node.file true)]),
     ("node_modules", Node.dir 5 OpenRes.ok [(".DS_Store", Node.file true)])]

/-- Claim C3 (witness): a concrete traversal recursing into `sub`. -/
theorem C3_witness :
    Event.recurse "r/sub" "sub" 5 0 ∈ (scanNode optsC3 "r" treeC3 0 []).1 ∧
    is_excluded "sub" optsC3 = false :=
  ⟨by simp [optsC3, treeC3, scanNode, scanEntries, processEntry, handleTarget,
      deleteAction, is_excluded, is_target],
   C3_excluded_never_recursed optsC3 "r" treeC3 0 [] "r/sub" "sub" 5 0
     (by simp [optsC3, treeC3, scanNode, scanEntries, processEntry,
       handleTarget, deleteAction, is_excluded, is_target])⟩

/-- Claim C5: with `--one-file-system`, a subdirectory on a different
device than the root is never recursed into (every `recurse` step stays
on `root_dev`), and every deleted path lies directly inside the scanned
directory or inside a directory actually reached by a `recurse` step. -/
theorem C5_one_file_system (opts : Options) (path : String) (n : Node)
    (depth : Int) (stdin : List Char)
    (hofs : opts.one_file_system = true) :
    (∀ p nm dv dd,
      Event.recurse p nm dv dd ∈ (scanNode opts path n depth stdin).1 →
        dv = opts.root_dev) ∧
    UnlinkProv path (scanNode opts path n depth stdin).1 :=
  ⟨fun p nm dv dd h =>
    (recurse_inv_node opts path n depth stdin _ h p nm dv dd rfl).2 hofs,
   unlink_prov_node opts path n depth stdin⟩

def optsC5 : Options := { one_file_system := true, root_dev := 7 }

def treeC5 : Node :=
  Node.dir 7 OpenRes.ok
    [("sub", Node.dir 7 OpenRes.ok []),
     ("mnt", Node.dir 9 OpenRes.ok [(".DS_Store", Node.file true)])]

/-- Claim C5 (witness): a concrete one-file-system traversal whose one
`recurse` step stays on the root device. -/
theorem C5_witness :
    optsC5.one_file_system = true ∧
    Event.recurse "r/sub" "sub" 7 0 ∈ (scanNode optsC5 "r" treeC5 0 []).1 ∧
    (7 : Nat) = optsC5.root_dev :=
  ⟨rfl,
   by simp [optsC5, treeC5, scanNode, scanEntries, processEntry, handleTarget,
     deleteAction, is_excluded, is_target],
   (C5_one_file_system optsC5 "r" treeC5 0 [] rfl).1 "r/sub" "sub" 7 0
     (by simp [optsC5, treeC5, scanNode, scanEntries, processEntry,
       handleTarget, deleteAction, is_excluded, is_target])⟩

end Rmds

namespace Rmds

/-- The events a matching file can contribute: prompt, would-delete and
unlink all carry the joined child path. -/
theorem deleteEvt_handleTarget (opts : Options) (q : String) (uok : Bool)
    (st : List Char) (e : Event) (h : e ∈ (handleTarget opts q uok st).1)
    (p : String)
    (hp : e = Event.unlinkCall p ∨ e = Event.logWouldDelete p ∨
      e = Event.prompt p) :
    p = q := by
  rcases mem_handleTarget _ _ _ _ _ h with h | h
  · rcases hp with hp | hp | hp <;> rw [hp] at h <;>
      first
        | exact Event.noConfusion h
        | (injection h with h'; try exact h')
  · rcases mem_deleteAction _ _ _ _ h with h | h | h | h <;>
      rcases hp with hp | hp | hp <;> rw [hp] at h <;>
      first
        | exact Event.noConfusion h
        | (injection h with h'; try exact h')

/-- At the depth limit, one entry can only contribute deletion events
for the entry's own joined path: recursion below dies at the depth
check. -/
theorem atLimit_entry (opts : Options) (path name : String) (child : Node)
    (depth : Int) (st : List Char) (hmd : opts.max_depth ≠ -1)
    (hdep : opts.max_depth ≤ depth) (e : Event)
    (h : e ∈ (processEntry opts path name child depth st).1) (p : String)
    (hp : e = Event.unlinkCall p ∨ e = Event.logWouldDelete p ∨
      e = Event.prompt p) :
    p = path ++ "/" ++ name := by
  cases child with
  | dir dev res entries =>
    simp only [processEntry] at h
    rw [scanNode_stop opts (path ++ "/" ++ name) (Node.dir dev res entries)
      (depth + 1) st hmd (by omega)] at h
    rcases hp with hp | hp | hp <;> subst hp <;>
      (split at h
       · simp at h
       · split at h
         · split at h <;> simp at h
         · split at h
           · split at h <;> simp at h
           · simp at h)
  | file uok =>
    simp only [processEntry] at h
    split at h
    · simp at h
    · split at h
      · exact deleteEvt_handleTarget _ _ _ _ _ h _ hp
      · simp at h
  | symlink tid uok =>
    simp only [processEntry] at h
    split at h
    · simp at h
    · split at h
      · exact deleteEvt_handleTarget _ _ _ _ _ h _ hp
      · simp at h
  | statErr =>
    rcases hp with hp | hp | hp <;> subst hp <;>
      (simp only [processEntry] at h;
       split at h <;> [simp at h; (split at h <;> simp at h)])

/-- At the depth limit, the entry loop only deletes directly inside the
listed directory. -/
theorem atLimit_entries (opts : Options) (path : String)
    (es : List (String × Node)) (depth : Int) (st : List Char)
    (hmd : opts.max_depth ≠ -1) (hdep : opts.max_depth ≤ depth) (e : Event)
    (h : e ∈ (scanEntries opts path es depth st).1) (p : String)
    (hp : e = Event.unlinkCall p ∨ e = Event.logWouldDelete p ∨
      e = Event.prompt p) :
    ∃ nm nd, (nm, nd) ∈ es ∧ p = path ++ "/" ++ nm := by
  induction es generalizing st with
  | nil => simp [scanEntries] at h
  | cons ent rest ih =>
    obtain ⟨name, child⟩ := ent
    simp only [scanEntries, List.mem_append] at h
    rcases h with h | h
    · exact ⟨name, child, List.mem_cons_self _ _,
        atLimit_entry opts path name child depth st hmd hdep e h p hp⟩
    · obtain ⟨nm, nd, hmem, hpth⟩ := ih _ h
      exact ⟨nm, nd, List.mem_cons_of_mem _ hmem, hpth⟩

/-- Claim C4: past the depth limit a scan call returns immediately
(no events, stdin untouched); and with `--max-depth 0` every file that
is prompted for, reported as would-delete, or unlinked lies directly in
the root directory listing, never in a subdirectory. -/
theorem C4_depth_limit :
    (∀ (opts : Options) (path : String) (n : Node) (depth : Int)
      (st : List Char), opts.max_depth ≠ -1 → depth > opts.max_depth →
        scanNode opts path n depth st = ([], st)) ∧
    (∀ (opts : Options) (path : String) (dv : Nat) (res : OpenRes)
      (es : List (String × Node)) (st : List Char) (e : Event) (p : String),
      opts.max_depth = 0 →
      e ∈ (scanNode opts path (Node.dir dv res es) 0 st).1 →
      (e = Event.unlinkCall p ∨ e = Event.logWouldDelete p ∨
        e = Event.prompt p) →
      ∃ nm nd, (nm, nd) ∈ es ∧ p = path ++ "/" ++ nm) := by
  constructor
  · exact fun opts path n depth st h1 h2 => scanNode_stop opts path n depth st h1 h2
  · intro opts path dv res es st e p hmd h hp
    cases res with
    | ok =>
      simp only [scanNode] at h
      split at h
      · simp at h
      · simp only [List.mem_append] at h
        rcases h with h | h
        · rcases hp with hp | hp | hp <;> subst hp <;> split at h <;> simp at h
        · exact atLimit_entries opts path es 0 st (by rw [hmd]; norm_num)
            (by rw [hmd]) e h p hp
    | accessDenied =>
      rcases hp with hp | hp | hp <;> subst hp <;>
        (simp only [scanNode] at h;
         split at h <;> [simp at h; (split at h <;> simp at h)])
    | otherErr =>
      rcases hp with hp | hp | hp <;> subst hp <;>
        (simp only [scanNode] at h;
         split at h <;> [simp at h; (split at h <;> simp at h)])

def optsC4 : Options := { max_depth := 0 }

def treeC4 : Node :=
  Node.dir 5 OpenRes.ok
    [(".DS_Store", Node.file true),
     ("sub", Node.dir 5 OpenRes.ok [(".DS_Store", Node.file true)])]

/-- Claim C4 (witness): with `--max-depth 0` the sole unlink happens on
the root's own `.DS_Store`, and the depth-1 call returns immediately. -/
theorem C4_witness :
    (optsC4.max_depth ≠ -1 ∧ (1 : Int) > optsC4.max_depth ∧
      scanNode optsC4 "r/sub" (Node.dir 5 OpenRes.ok []) 1 [] = ([], [])) ∧
    (optsC4.max_depth = 0 ∧
      Event.unlinkCall "r/.DS_Store" ∈ (scanNode optsC4 "r" treeC4 0 []).1 ∧
      ∃ nm nd, (nm, nd) ∈
          [(".DS_Store", Node.file true),
           ("sub", Node.dir 5 OpenRes.ok [(".DS_Store", Node.file true)])] ∧
        "r/.DS_Store" = "r" ++ "/" ++ nm) :=
  ⟨⟨by decide, by decide,
    C4_depth_limit.1 optsC4 "r/sub" (Node.dir 5 OpenRes.ok []) 1 []
      (by decide) (by decide)⟩,
   ⟨rfl,
    by simp [optsC4, treeC4, scanNode, scanEntries, processEntry,
      handleTarget, deleteAction, is_excluded, is_target],
    C4_depth_limit.2 optsC4 "r" 5 OpenRes.ok
      [(".DS_Store", Node.file true),
       ("sub", Node.dir 5 OpenRes.ok [(".DS_Store", Node.file true)])]
      [] (Event.unlinkCall "r/.DS_Store") "r/.DS_Store" rfl
      (by simp [optsC4, scanNode, scanEntries, processEntry,
        handleTarget, deleteAction, is_excluded, is_target])
      (Or.inl rfl)⟩⟩

end Rmds

namespace Rmds

def optsC7 : Options := { interactive := true }

def optsC7dry : Options := { interactive := true, dry_run := true }

def treeC7 : Node := Node.dir 5 OpenRes.ok [(".DS_Store", Node.file true)]

/-- Claim C7 (counterexample): in interactive mode with dry-run also
set, a `y` answer still deletes nothing — the "deleted iff the response
answers yes" equivalence fails without a non-dry-run proviso. -/
theorem C7_counterexample :
    (readResponse ['y', '\n']).1 = true ∧
    Event.unlinkCall "r/.DS_Store" ∉
      (scanNode optsC7dry "r" treeC7 0 ['y', '\n']).1 := by
  constructor
  · rfl
  · simp [optsC7dry, treeC7, scanNode, scanEntries, processEntry,
      handleTarget, deleteAction, is_target, readResponse]

/-- Claim C7 (amended): for a matching file in interactive mode in a
non-dry-run scan, the file is unlinked iff the response line starts with
`y` or `Y`; any other first character, or end of input, yields no
deletion, and the rest of the response line is discarded (stdin is left
at the character following the first newline) before the traversal
continues. -/
theorem C7_interactive_confirmation (opts : Options) (path name : String)
    (uok : Bool) (depth : Int) (st : List Char)
    (hint : opts.interactive = true) (hdry : opts.dry_run = false)
    (hname : ¬(name = "." ∨ name = ".."))
    (htarget : is_target name opts = true) :
    (Event.unlinkCall (path ++ "/" ++ name) ∈
        (processEntry opts path name (Node.file uok) depth st).1 ↔
      ∃ c rest, st = c :: rest ∧ (c = 'y' ∨ c = 'Y')) ∧
    (processEntry opts path name (Node.file uok) depth st).2 =
      dropLine st := by
  have hfp : processEntry opts path name (Node.file uok) depth st =
      handleTarget opts (path ++ "/" ++ name) uok st := by
    simp only [processEntry]
    rw [if_neg hname, if_pos htarget]
  rw [hfp, ← readResponse_fst st]
  constructor
  · unfold handleTarget
    rw [if_pos hint]
    constructor
    · intro h
      rcases List.mem_cons.mp h with h | h
      · exact absurd h (by simp)
      · by_contra hc
        rw [if_neg hc] at h
        simp at h
    · intro hc
      refine List.mem_cons_of_mem _ ?_
      rw [if_pos hc]
      exact (unlink_mem_deleteAction opts _ _ uok).mpr ⟨hdry, rfl⟩
  · rw [handleTarget_snd, if_pos hint]

/-- Claim C7 (witness): a `y`-response on a matching file deletes it and
leaves stdin past the newline. -/
theorem C7_witness :
    (optsC7.interactive = true ∧ optsC7.dry_run = false ∧
      is_target ".DS_Store" optsC7 = true) ∧
    Event.unlinkCall "r/.DS_Store" ∈
      (processEntry optsC7 "r" ".DS_Store" (Node.file true) 0
        ['y', 'e', 's', '\n', 'x']).1 ∧
    (processEntry optsC7 "r" ".DS_Store" (Node.file true) 0
      ['y', 'e', 's', '\n', 'x']).2 = ['x'] :=
  ⟨⟨rfl, rfl, by decide⟩,
   (C7_interactive_confirmation optsC7 "r" ".DS_Store" true 0
      ['y', 'e', 's', '\n', 'x'] rfl rfl (by simp) (by decide)).1.mpr
     ⟨'y', ['e', 's', '\n', 'x'], rfl, Or.inl rfl⟩,
   ((C7_interactive_confirmation optsC7 "r" ".DS_Store" true 0
      ['y', 'e', 's', '\n', 'x'] rfl rfl (by simp) (by decide)).2).trans
     (by simp [dropLine])⟩

/-- Claim C8: the exclude list is consulted only for directories — on a
non-directory entry the whole exclude list is irrelevant (any two lists
give identical behaviour), and a regular file matching the target
predicate is unlinked (in a non-interactive, non-dry-run scan) even when
its name is in the exclude list. -/
theorem C8_exclusion_only_directories (opts : Options) (l : List String)
    (path name : String) (child : Node) (depth : Int) (st : List Char)
    (hnd : S_ISDIR child = false) :
    processEntry { opts with excludes := l } path name child depth st =
      processEntry opts path name child depth st ∧
    (∀ uok, child = Node.file uok → ¬(name = "." ∨ name = "..") →
      is_target name opts = true → opts.interactive = false →
      opts.dry_run = false →
      Event.unlinkCall (path ++ "/" ++ name) ∈
        (processEntry opts path name child depth st).1) := by
  constructor
  · obtain ⟨dr, q, v, i, md, ofs, rd, ex, tn, ca⟩ := opts
    cases child with
    | dir dev res entries => exact absurd hnd (by simp [S_ISDIR])
    | file uok =>
      simp only [processEntry, handleTarget, deleteAction, is_target]
    | symlink tid uok =>
      simp only [processEntry, handleTarget, deleteAction, is_target]
    | statErr => simp only [processEntry]
  · intro uok hch hname ht hi hd
    subst hch
    simp only [processEntry]
    rw [if_neg hname, if_pos ht]
    unfold handleTarget
    rw [if_neg (by simp [hi])]
    exact (unlink_mem_deleteAction opts _ _ uok).mpr ⟨hd, rfl⟩

def optsC8 : Options := { excludes := [".DS_Store"] }

/-- Claim C8 (witness): a file named `.DS_Store` that is also in the
exclude list is deleted all the same, and its processing is identical
under the empty exclude list. -/
theorem C8_witness :
    (S_ISDIR (Node.file true) = false ∧ is_target ".DS_Store" {} = true ∧
      ({} : Options).interactive = false ∧ ({} : Options).dry_run = false) ∧
    processEntry optsC8 "r" ".DS_Store" (Node.file true) 0 [] =
      processEntry {} "r" ".DS_Store" (Node.file true) 0 [] ∧
    Event.unlinkCall "r/.DS_Store" ∈
      (processEntry {} "r" ".DS_Store" (Node.file true) 0 []).1 :=
  ⟨⟨rfl, by decide, rfl, rfl⟩,
   (C8_exclusion_only_directories {} [".DS_Store"] "r" ".DS_Store"
      (Node.file true) 0 [] rfl).1,
   (C8_exclusion_only_directories {} [".DS_Store"] "r" ".DS_Store"
      (Node.file true) 0 [] rfl).2 true rfl (by simp) (by decide) rfl rfl⟩

def optsC9dry : Options := { dry_run := true }

def treeC9 : Node :=
  Node.dir 0 OpenRes.ok [(".DS_Store", Node.symlink true true)]

/-- Claim C9 (counterexample): a symbolic link named `.DS_Store` matches
the target predicate, yet in a dry-run scan it is not unlinked — the
unconditional "is unlinked" clause needs a non-interactive, non-dry-run
proviso. -/
theorem C9_counterexample :
    is_target ".DS_Store" optsC9dry = true ∧
    Event.unlinkCall "r/.DS_Store" ∉
      (scanNode optsC9dry "r" treeC9 0 []).1 := by
  constructor
  · decide
  · simp [optsC9dry, treeC9, scanNode, scanEntries, processEntry,
      handleTarget, deleteAction, is_target]

/-- Claim C9 (amended): a symbolic link is never recursed into — `lstat`
does not follow it, so whether its referent is a directory is invisible
and irrelevant to its processing — and when its name matches the target
predicate it goes through the file deletion flow: in a non-interactive,
non-dry-run scan the link's own path is passed to `unlink`. -/
theorem C9_symlink_not_followed (opts : Options) (path name : String)
    (tid tid' uok : Bool) (depth : Int) (st : List Char) :
    (∀ p nm dv dd, Event.recurse p nm dv dd ∉
      (processEntry opts path name (Node.symlink tid uok) depth st).1) ∧
    processEntry opts path name (Node.symlink tid uok) depth st =
      processEntry opts path name (Node.symlink tid' uok) depth st ∧
    (¬(name = "." ∨ name = "..") → is_target name opts = true →
      opts.interactive = false → opts.dry_run = false →
      Event.unlinkCall (path ++ "/" ++ name) ∈
        (processEntry opts path name (Node.symlink tid uok) depth st).1) := by
  refine ⟨?_, ?_, ?_⟩
  · intro p nm dv dd h
    simp only [processEntry] at h
    split at h
    · simp at h
    · split at h
      · exact recurse_not_mem_handleTarget _ _ _ _ _ _ _ _ h
      · simp at h
  · simp only [processEntry]
  · intro hname ht hi hd
    simp only [processEntry]
    rw [if_neg hname, if_pos ht]
    unfold handleTarget
    rw [if_neg (by simp [hi])]
    exact (unlink_mem_deleteAction opts _ _ uok).mpr ⟨hd, rfl⟩

/-- Claim C9 (witness): a matching symlink to a directory is unlinked in
a default (non-interactive, non-dry-run) scan, and no recursion step is
generated by it. -/
theorem C9_witness :
    (is_target ".DS_Store" {} = true ∧ ({} : Options).interactive = false ∧
      ({} : Options).dry_run = false) ∧
    Event.unlinkCall "r/.DS_Store" ∈
      (processEntry {} "r" ".DS_Store" (Node.symlink true true) 0 []).1 ∧
    Event.recurse "r/.DS_Store" ".DS_Store" 0 0 ∉
      (processEntry {} "r" ".DS_Store" (Node.symlink true true) 0 []).1 :=
  ⟨⟨by decide, rfl, rfl⟩,
   (C9_symlink_not_followed {} "r" ".DS_Store" true false true 0 []).2.2
     (by simp) (by decide) rfl rfl,
   (C9_symlink_not_followed {} "r" ".DS_Store" true false true 0 []).1
     "r/.DS_Store" ".DS_Store" 0 0⟩

end Rmds

namespace Rmds

def optsC1quiet : Options := { dry_run := true, quiet := true }

def treeC1 : Node := Node.dir 5 OpenRes.ok [(".DS_Store", Node.file true)]

/-- Claim C1 (counterexample): with `quiet` also set, a dry run logs no
would-delete line at all while the non-dry-run twin still unlinks the
matching file, so the claimed set equality fails for that options
record. -/
theorem C1_counterexample :
    wouldDeletePaths (scanNode optsC1quiet "r" treeC1 0 []).1 = [] ∧
    unlinkPaths (scanNode { optsC1quiet with dry_run := false }
      "r" treeC1 0 []).1 = ["r/.DS_Store"] := by
  constructor
  · simp [optsC1quiet, treeC1, scanNode, scanEntries, processEntry,
      handleTarget, deleteAction, is_target, wouldDeletePaths]
  · simp [optsC1quiet, treeC1, scanNode, scanEntries, processEntry,
      handleTarget, deleteAction, is_target, unlinkPaths]

/-- Claim C1 (amended): a dry run performs no `unlink` whatsoever, and —
when `quiet` is unset — the would-delete lines it logs list exactly the
paths the run with `dry_run` cleared (all else equal, same stdin) passes
to `unlink`, in the same order. -/
theorem C1_dry_run_frame (opts : Options) (path : String) (n : Node)
    (depth : Int) (st : List Char) (hdry : opts.dry_run = true) :
    unlinkPaths (scanNode opts path n depth st).1 = [] ∧
    (opts.quiet = false →
      wouldDeletePaths (scanNode opts path n depth st).1 =
        unlinkPaths (scanNode { opts with dry_run := false }
          path n depth st).1) := by
  obtain ⟨dr, q, v, i, md, ofs, rd, ex, tn, ca⟩ := opts
  cases dr with
  | false => exact absurd hdry (by simp)
  | true =>
    exact ⟨(dry_wet_node q v i md ofs rd ex tn ca path n depth st).1,
      fun hq => (dry_wet_node q v i md ofs rd ex tn ca path n depth st).2.1 hq⟩

def optsC1 : Options := { dry_run := true }

/-- Claim C1 (witness): on a concrete tree, the dry run unlinks nothing
and its would-delete log equals the non-dry-run unlink list. -/
theorem C1_witness :
    (optsC1.dry_run = true ∧ optsC1.quiet = false) ∧
    unlinkPaths (scanNode optsC1 "r" treeC1 0 []).1 = [] ∧
    wouldDeletePaths (scanNode optsC1 "r" treeC1 0 []).1 =
      unlinkPaths (scanNode { optsC1 with dry_run := false }
        "r" treeC1 0 []).1 :=
  ⟨⟨rfl, rfl⟩,
   (C1_dry_run_frame optsC1 "r" treeC1 0 [] rfl).1,
   (C1_dry_run_frame optsC1 "r" treeC1 0 [] rfl).2 rfl⟩

end Rmds
